import Mathlib

/-!
# Verification of the version-control core (directory trees, diff, object store)

Shallow embedding of `src/directory.rs` and `src/object_store/directory.rs`.
Rust `BTreeMap<String, DirectoryEntry>` is embedded as a key-sorted spine
(`Directory.nil` / `Directory.cons`); the BTreeMap invariant (strictly
ascending keys) is expressed by `Directory.keysSorted`.
-/

set_option maxHeartbeats 1000000

/-- A byte sequence (`Vec<u8>` / `&[u8]`). -/
abbrev Bytes := List Nat

/-- Modelled from the spec: `object_id.rs` is not under `src/`.  §4.1 says
`identifier_of(bytes)` is pure, deterministic and total, and that identifier
equality is exactly equality of the underlying hash value.  We model the
identifier as a perfect hash: the byte sequence itself. -/
structure ObjectId where
  bytes : Bytes
deriving DecidableEq, Repr

/-- Modelled from the spec: the pure, deterministic, total `identifier_of`
function of §4.1 (`ObjectId` from `&[u8]`, i.e. Rust's `object.into()`). -/
def objectIdOf (b : Bytes) : ObjectId := ⟨b⟩

/-- One hexadecimal digit character. -/
def hexDigitChar (n : Nat) : Char :=
  if n < 10 then Char.ofNat (48 + n) else Char.ofNat (87 + n)

/-- Two hex characters for one byte. -/
def byteChars (n : Nat) : List Char :=
  [hexDigitChar (n / 16 % 16), hexDigitChar (n % 16)]

/-- Modelled from the spec: the canonical string encoding of an identifier
(`format!("{}", id)`; `object_id.rs` with its `Display` instance is not under
`src/`).  §4.1: a deterministic, case-stable, path-safe text encoding of the
hash, always at least 3 characters long (sharding slices off the first two).
We render a fixed tag followed by the hex digits of the modelled hash. -/
def idString (id : ObjectId) : List Char :=
  'i' :: 'd' :: 'x' :: (id.bytes.map byteChars).flatten

/- ## Directory trees (src/directory.rs lines 13-17, 150-154) -/

mutual

/-- Rust's `enum DirectoryEntry { Directory(Box<Directory>), File(ObjectId) }`
(src/directory.rs lines 150-154). -/
inductive DirectoryEntry where
  | directory (d : Directory)
  | file (id : ObjectId)

/-- Rust's `struct Directory { root: BTreeMap<String, DirectoryEntry> }`
(src/directory.rs lines 13-17), embedded as the sorted association spine of
the map. -/
inductive Directory where
  | nil
  | cons (name : String) (entry : DirectoryEntry) (rest : Directory)

end

deriving instance DecidableEq for DirectoryEntry, Directory

/-- The association list underlying the map (`BTreeMap` iteration order =
spine order). -/
def Directory.toList : Directory → List (String × DirectoryEntry)
  | .nil => []
  | .cons k e rest => (k, e) :: rest.toList

/-- Rust's `self.root.get(k)` on the embedded map. -/
def Directory.lookup : Directory → String → Option DirectoryEntry
  | .nil, _ => none
  | .cons k e rest, k' => if k' = k then some e else rest.lookup k'

/-- Rust's `self.root.contains_key(k)`. -/
def Directory.containsKey (d : Directory) (k : String) : Bool :=
  (d.lookup k).isSome

/-- Strict character order by code point (= Rust's byte order on `char`). -/
def charLt (a b : Char) : Bool := decide (a.toNat < b.toNat)

/-- Strict lexicographic order on character lists: Rust's `Ord` on
`String` (byte-lexicographic, which agrees with code-point-lexicographic
for UTF-8). -/
def charListLt : List Char → List Char → Bool
  | _, [] => false
  | [], _ :: _ => true
  | a :: as, b :: bs => charLt a b || (decide (a = b) && charListLt as bs)

/-- Rust's `String` order, on the embedded strings. -/
def strLt (a b : String) : Bool := charListLt a.data b.data

/-- All keys of the spine are strictly greater than `k`. -/
def Directory.keysAbove (k : String) : Directory → Bool
  | .nil => true
  | .cons k' _ rest => strLt k k' && rest.keysAbove k

/-- The `BTreeMap` representation invariant: keys strictly ascending along
the spine. -/
def Directory.keysSorted : Directory → Bool
  | .nil => true
  | .cons k _ rest => rest.keysAbove k && rest.keysSorted

/-- Spine induction for `Directory` (single-motive recursor: entries are
not recursed into). -/
def dirInduct {motive : Directory → Prop} (base : motive .nil)
    (step : ∀ k e rest, motive rest → motive (.cons k e rest)) :
    ∀ t, motive t
  | .nil => base
  | .cons k e rest => step k e rest (dirInduct base step rest)
termination_by t => sizeOf t

/- ## Diff (src/directory.rs lines 26-37) -/

mutual

/-- Rust's `enum DiffEntry { File(ObjectId), Directory(Box<Diff>) }`
(src/directory.rs lines 33-37). -/
inductive DiffEntry where
  | file (id : ObjectId)
  | directory (d : Diff)

/-- Rust's `struct Diff { deleted: BTreeSet<String>, added: BTreeMap<String,
DirectoryEntry>, modified: BTreeMap<String, DiffEntry> }`
(src/directory.rs lines 26-31); sets/maps embedded as their sorted
element/association lists. -/
inductive Diff where
  | mk (deleted : List String) (added : List (String × DirectoryEntry))
      (modified : List (String × DiffEntry))

end

/-- The `added` component of `Directory::diff` (src/directory.rs lines
71-76): entries of `other` whose name is absent from `self`. -/
def Directory.addedList (self other : Directory) : List (String × DirectoryEntry) :=
  other.toList.filter (fun p => !(self.containsKey p.1))

/-- The `deleted` component of `Directory::diff` (src/directory.rs lines
77-82): names of `self` absent from `other`. -/
def Directory.deletedList (self other : Directory) : List String :=
  (self.toList.filter (fun p => !(other.containsKey p.1))).map (fun p => p.1)

mutual

/-- Embeds `DirectoryEntry::diff` (src/directory.rs lines 40-64). -/
def DirectoryEntry.diff (a b : DirectoryEntry) : Option DiffEntry :=
  match a, b with
  | .file id, .file id' => if id ≠ id' then some (.file id') else none
  | .directory _, .file id => some (.file id)
  | .file _, .directory d => some (.directory (Diff.mk [] d.toList []))
  | .directory d, .directory d' =>
      if d = d' then none else some (.directory (Directory.diff d d'))
termination_by (sizeOf a, 0)

/-- Embeds `Directory::diff` (src/directory.rs lines 70-99). -/
def Directory.diff (self other : Directory) : Diff :=
  Diff.mk (Directory.deletedList self other) (Directory.addedList self other)
    (Directory.modifiedAux self other)
termination_by (sizeOf self, 1)

/-- The `modified` component of `Directory::diff` (src/directory.rs lines
83-93): the `filter_map` over `self`'s entries, looking each name up in
`other` and keeping the non-`None` entry diffs. -/
def Directory.modifiedAux (self other : Directory) : List (String × DiffEntry) :=
  match self with
  | .nil => []
  | .cons k e rest =>
    match Directory.lookup other k with
    | none => Directory.modifiedAux rest other
    | some e' =>
      match DirectoryEntry.diff e e' with
      | none => Directory.modifiedAux rest other
      | some de => (k, de) :: Directory.modifiedAux rest other
termination_by (sizeOf self, 0)

end

/- ## Filesystem model for the sharded store and the materializer -/

/-- A path component (an `OsStr` known to be valid Unicode), as characters. -/
abbrev FsName := List Char

/-- A filesystem path, as its components. -/
abbrev FsPath := List FsName

/-- What a path is bound to on disk. -/
inductive FsNode where
  | file (content : Bytes)
  | dir
deriving DecidableEq, Repr

/-- A filesystem state: an association of paths to nodes (first binding
wins). -/
abbrev Fs := List (FsPath × FsNode)

/-- Look a path up in the filesystem. -/
def fsLookup (fs : Fs) (p : FsPath) : Option FsNode :=
  match fs with
  | [] => none
  | (q, n) :: rest => if p = q then some n else fsLookup rest p

/-- Embeds `std::fs::try_exists(path)`. -/
def fsTryExists (fs : Fs) (p : FsPath) : Bool :=
  (fsLookup fs p).isSome

/-- The kinds of `std::io::Error` the model can produce
(`std::io::ErrorKind`). -/
inductive IOErrorKind where
  | notFound
  | alreadyExists
  | isADirectory
  | notADirectory
deriving DecidableEq, Repr

/-- A `std::io::Error`, reduced to its kind. -/
structure IOError where
  kind : IOErrorKind
deriving DecidableEq, Repr

/-- The path is bound to a directory. -/
def fsIsDir (fs : Fs) (p : FsPath) : Bool :=
  match fsLookup fs p with
  | some .dir => true
  | _ => false

/-- Some strict ancestor of `p` is bound to a plain file (opening below it
fails with `NotADirectory` rather than `NotFound`). -/
def fsAncestorIsFile (fs : Fs) (p : FsPath) : Bool :=
  ((List.range p.length).map (fun n => p.take n)).any (fun q =>
    match fsLookup fs q with
    | some (.file _) => true
    | _ => false)

/-- Embeds `std::fs::create_dir(p)`: errors if `p` exists or its parent is not a
directory. -/
def fsCreateDir (fs : Fs) (p : FsPath) : Except IOError Fs :=
  if fsTryExists fs p then .error ⟨.alreadyExists⟩
  else if fsIsDir fs p.dropLast then .ok ((p, .dir) :: fs)
  else .error ⟨.notFound⟩

/-- The content of a file after `write`ing `data` at position 0 of a file
that previously held `old`: the open options used by the code
(`create(true).write(true)`, src/directory.rs lines 116-121 and
src/object_store/directory.rs line 68) do NOT truncate, so bytes of `old`
beyond `data.length` survive. -/
def writeAt0 (data old : Bytes) : Bytes :=
  data ++ old.drop data.length

/-- Embeds `File::options().create(true).write(true).open(p)` followed by
`f.write(data)`: creates the file if absent (parent must be a directory),
overwrites from position 0 without truncating if present, errors if `p` is
a directory. -/
def fsOpenCreateWrite (fs : Fs) (p : FsPath) (data : Bytes) : Except IOError Fs :=
  match fsLookup fs p with
  | some (.file old) => .ok ((p, .file (writeAt0 data old)) :: fs)
  | some .dir => .error ⟨.isADirectory⟩
  | none =>
    if fsIsDir fs p.dropLast then .ok ((p, .file data) :: fs)
    else .error ⟨.notFound⟩

/-- Embeds `File::options().read(true).open(p)` followed by `read_to_end`:
returns the file's bytes; a missing path yields `NotFound` (or
`NotADirectory` when an ancestor is a plain file); a directory yields
`IsADirectory` from the read. -/
def fsOpenRead (fs : Fs) (p : FsPath) : Except IOError Bytes :=
  match fsLookup fs p with
  | some (.file c) => .ok c
  | some .dir => .error ⟨.isADirectory⟩
  | none =>
    if fsAncestorIsFile fs p then .error ⟨.notADirectory⟩
    else .error ⟨.notFound⟩

/- ## DirectoryObjectStore (src/object_store/directory.rs) -/

/-- Embeds `DirectoryObjectStore::has` (src/object_store/directory.rs lines
27-33): format the id, slice the first two characters as the shard
directory and the rest as the file name, and `try_exists` that path under
the root. -/
def DirectoryObjectStore.has (root : FsPath) (fs : Fs) (id : ObjectId) :
    Except IOError Bool :=
  let s := idString id
  .ok (fsTryExists fs (root ++ [s.take 2, s.drop 2]))

/-- Embeds `DirectoryObjectStore::read` (src/object_store/directory.rs lines
35-54): open the sharded path for reading; `NotFound` becomes `Ok(None)`,
any other error kind is returned as the error. -/
def DirectoryObjectStore.read (root : FsPath) (fs : Fs) (id : ObjectId) :
    Except IOError (Option Bytes) :=
  let s := idString id
  match fsOpenRead fs (root ++ [s.take 2, s.drop 2]) with
  | .ok v => .ok (some v)
  | .error err =>
    if err.kind = .notFound then .ok none else .error err

/-- Embeds `DirectoryObjectStore::insert` (src/object_store/directory.rs lines
56-71): compute the id from the bytes, create the shard subdirectory if it
does not exist, then open the sharded path with
`create(true).write(true)` and write the object bytes. -/
def DirectoryObjectStore.insert (root : FsPath) (fs : Fs) (object : Bytes) :
    Except IOError (Fs × ObjectId) :=
  let id := objectIdOf object
  let s := idString id
  let subdirPath := root ++ [s.take 2]
  match (if !(fsTryExists fs subdirPath) then fsCreateDir fs subdirPath
         else .ok fs) with
  | .error e => .error e
  | .ok fs1 =>
    match fsOpenCreateWrite fs1 (subdirPath ++ [s.drop 2]) object with
    | .error e => .error e
    | .ok fs2 => .ok (fs2, id)

/- ## Materializer: Directory::write (src/directory.rs lines 101-133) -/

/-- Rust's `enum Error<Store> { ObjectMissing(ObjectId), Store(Store::Error),
IO(std::io::Error) }` (src/directory.rs lines 19-24). -/
inductive WError (ε : Type) where
  | objectMissing (id : ObjectId)
  | storeErr (e : ε)
  | ioErr (e : IOError)
deriving DecidableEq, Repr

/-- A Rust `String` key as a path component. -/
def strToName (s : String) : FsName := s.data

mutual

/-- Embeds `Directory::write` (src/directory.rs lines 104-133): if
`read_dir(path)` succeeds (the target exists and is a directory), process
the entries in map order; otherwise do nothing and return `Ok(())`.  The
store is abstracted, as in the Rust generic, by its `read` operation. -/
def Directory.write {ε : Type} (readStore : ObjectId → Except ε (Option Bytes))
    (self : Directory) (fs : Fs) (path : FsPath) : Except (WError ε) Fs :=
  if fsIsDir fs path then Directory.writeEntries readStore self fs path
  else .ok fs
termination_by (sizeOf self, 1)

/-- The entry loop of `Directory::write` (src/directory.rs lines 110-130):
a file entry is read from the store (`Err(Store)` on store error,
`Err(ObjectMissing)` on `Ok(None)`) and its bytes written into
`path/name`; a directory entry recurses into `path/name`. -/
def Directory.writeEntries {ε : Type}
    (readStore : ObjectId → Except ε (Option Bytes))
    (self : Directory) (fs : Fs) (path : FsPath) : Except (WError ε) Fs :=
  match self with
  | .nil => .ok fs
  | .cons name e rest =>
    match e with
    | .file id =>
      match readStore id with
      | .error e => .error (.storeErr e)
      | .ok none => .error (.objectMissing id)
      | .ok (some v) =>
        match fsOpenCreateWrite fs (path ++ [strToName name]) v with
        | .error e => .error (.ioErr e)
        | .ok fs' => Directory.writeEntries readStore rest fs' path
    | .directory d =>
      match Directory.write readStore d fs (path ++ [strToName name]) with
      | .error e => .error e
      | .ok fs' => Directory.writeEntries readStore rest fs' path
termination_by (sizeOf self, 0)

end

/- ## Snapshot construction: Directory::new (src/directory.rs lines 156-200) -/

/-- An `OsString` file name: either valid Unicode or not.
`into_string()` succeeds exactly on the first form. -/
inductive OsName where
  | unicode (s : String)
  | nonUnicode (raw : List Nat)
deriving DecidableEq, Repr

/-- Rust's `OsString::into_string()`, with `Err` collapsed to `none`. -/
def OsName.intoString : OsName → Option String
  | .unicode s => some s
  | .nonUnicode _ => none

/-- Rust's `struct Ignores { set: BTreeSet<String> }` (src/directory.rs lines
137-140), as the set's element list. -/
structure Ignores where
  set : List String
deriving DecidableEq, Repr

/-- Embeds `Ignores::default()` (src/directory.rs lines 142-148). -/
def Ignores.default : Ignores := ⟨[".rev"]⟩

mutual

/-- A real on-disk tree as `read_dir` presents it to `Directory::new`:
a plain file with its contents, or a directory listing its children. -/
inductive FsTree where
  | file (content : Bytes)
  | dir (children : FsChildren)

/-- The ordered list of `read_dir` entries of a directory (name and
entry). -/
inductive FsChildren where
  | nil
  | cons (name : OsName) (t : FsTree) (rest : FsChildren)

end

/-- Embeds `BTreeMap::insert` on the embedded sorted spine: replace the value at
an existing key, or insert keeping keys sorted. -/
def Directory.insertEntry (s : String) (e : DirectoryEntry) :
    Directory → Directory
  | .nil => .cons s e .nil
  | .cons k e' rest =>
    if s = k then .cons k e rest
    else if strLt s k then .cons s e (.cons k e' rest)
    else .cons k e' (Directory.insertEntry s e rest)

/-- The outcome of the modelled `Directory::new`: Rust's `Result` plus the
separate panic channel (`into_string().unwrap()` on a non-Unicode name
aborts instead of returning through the `Result`). -/
inductive BuildOutcome (σ : Type) where
  | panicked
  | err (e : WError IOError)
  | ok (d : Directory) (store : σ)

/-- Embeds `Directory::new` (src/directory.rs lines 156-200), processing the
`read_dir` listing in order with the accumulated `root` map.  For every
entry the code first evaluates
`ignores.set.contains(&dir_entry.file_name().into_string().unwrap())`
(lines 165-168): a non-Unicode name panics there, before the entry kind is
even inspected.  A directory child recurses (line 173) and a file child is
hashed and inserted into the store (lines 179-190); both record the entry
under `file_name().into_string().unwrap()`.  The store (generic `Store`)
is modelled by a state `σ` with a total insert, as in the in-memory
backing. -/
def dirNew {σ : Type} (ins : σ → Bytes → σ) (ignores : Ignores)
    (children : FsChildren) (acc : Directory) (st : σ) : BuildOutcome σ :=
  match children with
  | .nil => .ok acc st
  | .cons name t rest =>
    match OsName.intoString name with
    | none => .panicked
    | some s =>
      if ignores.set.contains s then dirNew ins ignores rest acc st
      else
        match t with
        | .dir sub =>
          match dirNew ins ignores sub .nil st with
          | .panicked => .panicked
          | .err e => .err e
          | .ok d st' =>
            dirNew ins ignores rest (acc.insertEntry s (.directory d)) st'
        | .file content =>
          let id := objectIdOf content
          dirNew ins ignores rest (acc.insertEntry s (.file id))
            (ins st content)
termination_by sizeOf children

/-- Some direct child of the listing has a non-Unicode name. -/
def FsChildren.hasNonUnicodeChild : FsChildren → Bool
  | .nil => false
  | .cons (.nonUnicode _) _ _ => true
  | .cons (.unicode _) _ rest => rest.hasNonUnicodeChild

/- ## Helper lemmas: the string order and the embedded map -/

theorem charListLt_irrefl (l : List Char) : charListLt l l = false := by
  induction l with
  | nil => rfl
  | cons a as ih => simp [charListLt, charLt, ih]

theorem strLt_irrefl (s : String) : strLt s s = false :=
  charListLt_irrefl s.data

theorem charListLt_asymm {l₁ l₂ : List Char} (h : charListLt l₁ l₂ = true) :
    charListLt l₂ l₁ = false := by
  induction l₁ generalizing l₂ with
  | nil =>
    cases l₂ with
    | nil => simp [charListLt] at h
    | cons b bs => rfl
  | cons a as ih =>
    cases l₂ with
    | nil => simp [charListLt] at h
    | cons b bs =>
      simp only [charListLt, charLt, Bool.or_eq_true, Bool.and_eq_true,
        decide_eq_true_eq, Bool.or_eq_false_iff, Bool.and_eq_false_iff] at h ⊢
      rcases h with h | ⟨rfl, h⟩
      · constructor
        · simpa using Nat.le_of_lt h
        · left
          simp only [decide_eq_false_iff_not]
          rintro rfl
          omega
      · constructor
        · simp
        · right
          exact ih h

theorem strLt_asymm {a b : String} (h : strLt a b = true) : strLt b a = false :=
  charListLt_asymm h

theorem dirContains_of_mem {t : Directory} {k : String} {e : DirectoryEntry}
    (h : (k, e) ∈ t.toList) : t.containsKey k = true := by
  induction t using dirInduct with
  | base => simp [Directory.toList] at h
  | step k' e' rest ih =>
    simp only [Directory.toList, List.mem_cons, Prod.mk.injEq] at h
    rcases h with ⟨rfl, rfl⟩ | h
    · simp [Directory.containsKey, Directory.lookup]
    · by_cases hk : k = k'
      · simp [Directory.containsKey, Directory.lookup, hk]
      · simpa [Directory.containsKey, Directory.lookup, hk] using ih h

theorem dirKeysAbove_lt {k₀ : String} {t : Directory}
    (h : t.keysAbove k₀ = true) {k : String} {e : DirectoryEntry}
    (hm : (k, e) ∈ t.toList) : strLt k₀ k = true := by
  induction t using dirInduct with
  | base => simp [Directory.toList] at hm
  | step k' e' rest ih =>
    simp only [Directory.keysAbove, Bool.and_eq_true] at h
    simp only [Directory.toList, List.mem_cons, Prod.mk.injEq] at hm
    rcases hm with ⟨rfl, rfl⟩ | hm
    · exact h.1
    · exact ih h.2 hm

theorem dirLookup_of_sorted_mem {t : Directory} (hs : t.keysSorted = true)
    {k : String} {e : DirectoryEntry} (hm : (k, e) ∈ t.toList) :
    t.lookup k = some e := by
  induction t using dirInduct with
  | base => simp [Directory.toList] at hm
  | step k' e' rest ih =>
    simp only [Directory.keysSorted, Bool.and_eq_true] at hs
    simp only [Directory.toList, List.mem_cons, Prod.mk.injEq] at hm
    rcases hm with ⟨rfl, rfl⟩ | hm
    · simp [Directory.lookup]
    · have hlt : strLt k' k = true := dirKeysAbove_lt hs.1 hm
      have hne : k ≠ k' := by
        rintro rfl
        rw [strLt_irrefl] at hlt
        cases hlt
      simp only [Directory.lookup, if_neg hne]
      exact ih hs.2 hm

theorem dirMem_of_lookup {t : Directory} {k : String} {e : DirectoryEntry}
    (h : t.lookup k = some e) : (k, e) ∈ t.toList := by
  induction t using dirInduct with
  | base => simp [Directory.lookup] at h
  | step k' e' rest ih =>
    by_cases hk : k = k'
    · subst hk
      simp [Directory.lookup] at h
      subst h
      simp [Directory.toList]
    · simp only [Directory.lookup, if_neg hk] at h
      simp only [Directory.toList, List.mem_cons]
      exact Or.inr (ih h)

theorem dirLookup_none_of_keysAbove {k₀ : String} {t : Directory}
    (h : t.keysAbove k₀ = true) : t.lookup k₀ = none := by
  cases hl : t.lookup k₀ with
  | none => rfl
  | some e =>
    have hlt := dirKeysAbove_lt h (dirMem_of_lookup hl)
    rw [strLt_irrefl] at hlt
    cases hlt

/- ## Helper lemmas: diff -/

theorem entryDiff_self (e : DirectoryEntry) : DirectoryEntry.diff e e = none := by
  cases e <;> simp [DirectoryEntry.diff]

theorem entryDiff_eq_none_iff (a b : DirectoryEntry) :
    DirectoryEntry.diff a b = none ↔ a = b := by
  cases a with
  | file id =>
    cases b with
    | file id' => simp [DirectoryEntry.diff]
    | directory d' => simp [DirectoryEntry.diff]
  | directory d =>
    cases b with
    | file id' => simp [DirectoryEntry.diff]
    | directory d' =>
      by_cases h : d = d'
      · simp [DirectoryEntry.diff, h]
      · simp [DirectoryEntry.diff, h]

theorem addedList_self (t : Directory) : Directory.addedList t t = [] := by
  rw [Directory.addedList]
  apply List.filter_eq_nil_iff.mpr
  intro p hp
  obtain ⟨k, e⟩ := p
  simp [dirContains_of_mem hp]

theorem deletedList_self (t : Directory) : Directory.deletedList t t = [] := by
  rw [Directory.deletedList]
  have h : t.toList.filter (fun p => !(t.containsKey p.1)) = [] := by
    apply List.filter_eq_nil_iff.mpr
    intro p hp
    obtain ⟨k, e⟩ := p
    simp [dirContains_of_mem hp]
  rw [h]
  rfl

theorem modifiedAux_self {t : Directory} (hs : t.keysSorted = true) :
    ∀ s : Directory, (∀ p ∈ s.toList, p ∈ t.toList) →
      Directory.modifiedAux s t = [] := by
  intro s
  induction s using dirInduct with
  | base => intro _; rw [Directory.modifiedAux]
  | step k e rest ih =>
    intro hsub
    have hmem : (k, e) ∈ t.toList := hsub (k, e) (by simp [Directory.toList])
    have hl : t.lookup k = some e := dirLookup_of_sorted_mem hs hmem
    rw [Directory.modifiedAux, hl]
    simp only [entryDiff_self]
    exact ih (fun p hp => hsub p (by simp [Directory.toList, hp]))

theorem diff_self_empty {t : Directory} (hs : t.keysSorted = true) :
    Directory.diff t t = Diff.mk [] [] [] := by
  rw [Directory.diff, addedList_self, deletedList_self,
    modifiedAux_self hs t (fun p hp => hp)]

theorem dirExt_of_lookup_eq : ∀ {a : Directory}, a.keysSorted = true →
    ∀ {b : Directory}, b.keysSorted = true →
    (∀ k, a.lookup k = b.lookup k) → a = b := by
  intro a
  induction a using dirInduct with
  | base =>
    intro _ b _ h
    cases b with
    | nil => rfl
    | cons k e rest =>
      have := h k
      simp [Directory.lookup] at this
  | step k e rest ih =>
    intro hs b hb h
    cases b with
    | nil =>
      have := h k
      simp [Directory.lookup] at this
    | cons k' e' rest' =>
      have hsa : rest.keysAbove k = true ∧ rest.keysSorted = true := by
        simpa [Directory.keysSorted, Bool.and_eq_true] using hs
      have hsb : rest'.keysAbove k' = true ∧ rest'.keysSorted = true := by
        simpa [Directory.keysSorted, Bool.and_eq_true] using hb
      have hk : k = k' := by
        by_contra hne
        have h1 : Directory.lookup (.cons k' e' rest') k = some e := by
          rw [← h k]; simp [Directory.lookup]
        have h2 : Directory.lookup (.cons k e rest) k' = some e' := by
          rw [h k']; simp [Directory.lookup]
        rw [Directory.lookup, if_neg hne] at h1
        have hlt1 : strLt k' k = true := dirKeysAbove_lt hsb.1 (dirMem_of_lookup h1)
        have hne' : k' ≠ k := fun hh => hne hh.symm
        rw [Directory.lookup, if_neg hne'] at h2
        have hlt2 : strLt k k' = true := dirKeysAbove_lt hsa.1 (dirMem_of_lookup h2)
        have hasym := strLt_asymm hlt1
        rw [hasym] at hlt2
        cases hlt2
      subst hk
      have he : e = e' := by
        have := h k
        simpa [Directory.lookup] using this
      subst he
      have htail : ∀ k₀, rest.lookup k₀ = rest'.lookup k₀ := by
        intro k₀
        by_cases hk0 : k₀ = k
        · subst hk0
          rw [dirLookup_none_of_keysAbove hsa.1, dirLookup_none_of_keysAbove hsb.1]
        · have := h k₀
          rwa [Directory.lookup, if_neg hk0, Directory.lookup, if_neg hk0] at this
      rw [ih hsa.2 hsb.2 htail]

theorem modifiedAux_nil_entryDiff : ∀ {s : Directory} {t : Directory},
    Directory.modifiedAux s t = [] → ∀ {k : String} {e e' : DirectoryEntry},
    (k, e) ∈ s.toList → t.lookup k = some e' →
    DirectoryEntry.diff e e' = none := by
  intro s
  induction s using dirInduct with
  | base =>
    intro t _ k e e' hm
    simp [Directory.toList] at hm
  | step k₀ e₀ rest ih =>
    intro t h k e e' hm hl
    cases hl0 : t.lookup k₀ with
    | none =>
      simp only [Directory.modifiedAux, hl0] at h
      simp only [Directory.toList, List.mem_cons, Prod.mk.injEq] at hm
      rcases hm with ⟨rfl, rfl⟩ | hm
      · rw [hl0] at hl; cases hl
      · exact ih h hm hl
    | some e₀' =>
      cases hd : DirectoryEntry.diff e₀ e₀' with
      | none =>
        simp only [Directory.modifiedAux, hl0, hd] at h
        simp only [Directory.toList, List.mem_cons, Prod.mk.injEq] at hm
        rcases hm with ⟨rfl, rfl⟩ | hm
        · rw [hl0] at hl
          injection hl with hl
          exact hl ▸ hd
        · exact ih h hm hl
      | some de =>
        simp only [Directory.modifiedAux, hl0, hd] at h
        cases h

/- ## Claims C2, C4, C9 -/

/-- C2: Diff idempotence — for every directory tree `t` (every value of the
embedded `BTreeMap` satisfying its key invariant), `diff(t, t)` returns the
`Diff` whose deleted set, added map, and modified map are all empty. -/
theorem c2_diff_idempotent (t : Directory) (hs : t.keysSorted = true) :
    Directory.diff t t = Diff.mk [] [] [] :=
  diff_self_empty hs

theorem c2_diff_idempotent_witness :
    (Directory.cons "a" (.file ⟨[1]⟩) (Directory.cons "b"
      (.directory (Directory.cons "c" (.file ⟨[2]⟩) .nil)) .nil)).keysSorted = true
    ∧ Directory.diff
        (Directory.cons "a" (.file ⟨[1]⟩) (Directory.cons "b"
          (.directory (Directory.cons "c" (.file ⟨[2]⟩) .nil)) .nil))
        (Directory.cons "a" (.file ⟨[1]⟩) (Directory.cons "b"
          (.directory (Directory.cons "c" (.file ⟨[2]⟩) .nil)) .nil))
      = Diff.mk [] [] [] :=
  ⟨by decide, c2_diff_idempotent _ (by decide)⟩

/-- C4: Type-change diff (file to directory) — for every entry pair where
`self`'s entry is `File(_)` and `other`'s entry is `Directory(d)`,
`DirectoryEntry::diff` returns `Some(DiffEntry::Directory)` of a `Diff`
whose added map is all of `d`'s entries and whose deleted and modified are
empty. -/
theorem c4_file_to_directory_diff (id : ObjectId) (d : Directory) :
    DirectoryEntry.diff (.file id) (.directory d)
      = some (.directory (Diff.mk [] d.toList [])) := by
  simp [DirectoryEntry.diff]

/-- C9: Empty diff certifies equality — for every pair of directory trees
`a` and `b` (satisfying the `BTreeMap` key invariant), `diff(a, b)` has
empty deleted, added, and modified iff `a == b`. -/
theorem c9_empty_diff_iff_eq (a b : Directory) (ha : a.keysSorted = true)
    (hb : b.keysSorted = true) :
    Directory.diff a b = Diff.mk [] [] [] ↔ a = b := by
  constructor
  · intro h
    rw [Directory.diff] at h
    injection h with hdel hadd hmod
    have hdel' : ∀ p ∈ a.toList, b.containsKey p.1 = true := by
      intro p hp
      rw [Directory.deletedList] at hdel
      have hf := List.map_eq_nil_iff.mp hdel
      have := List.filter_eq_nil_iff.mp hf p hp
      simpa using this
    have hadd' : ∀ p ∈ b.toList, a.containsKey p.1 = true := by
      intro p hp
      rw [Directory.addedList] at hadd
      have := List.filter_eq_nil_iff.mp hadd p hp
      simpa using this
    apply dirExt_of_lookup_eq ha hb
    intro k
    cases hak : a.lookup k with
    | some e =>
      have hmem := dirMem_of_lookup hak
      have hcb : b.containsKey k = true := hdel' (k, e) hmem
      rw [Directory.containsKey] at hcb
      cases hbk : b.lookup k with
      | none => rw [hbk] at hcb; simp at hcb
      | some e' =>
        have hnone := modifiedAux_nil_entryDiff hmod hmem hbk
        have he : e = e' := (entryDiff_eq_none_iff e e').mp hnone
        rw [he]
    | none =>
      cases hbk : b.lookup k with
      | none => rfl
      | some e' =>
        have hmem := dirMem_of_lookup hbk
        have hca : a.containsKey k = true := hadd' (k, e') hmem
        rw [Directory.containsKey, hak] at hca
        simp at hca
  · rintro rfl
    exact diff_self_empty hb

theorem c9_empty_diff_iff_eq_witness :
    (Directory.cons "x" (.file ⟨[1]⟩) .nil).keysSorted = true
    ∧ (Directory.cons "x" (.file ⟨[2]⟩) .nil).keysSorted = true
    ∧ (Directory.diff (Directory.cons "x" (.file ⟨[1]⟩) .nil)
        (Directory.cons "x" (.file ⟨[2]⟩) .nil) = Diff.mk [] [] []
      ↔ Directory.cons "x" (.file ⟨[1]⟩) .nil
          = Directory.cons "x" (.file ⟨[2]⟩) .nil) :=
  ⟨by decide, by decide, c9_empty_diff_iff_eq _ _ (by decide) (by decide)⟩

/- ## Helper lemmas: the sharded store -/

theorem writeAt0_self (b : Bytes) : writeAt0 b b = b := by
  simp [writeAt0]

theorem fsOpenCreateWrite_ok_lookup {fs fs' : Fs} {p : FsPath} {data : Bytes}
    (h : fsOpenCreateWrite fs p data = .ok fs')
    (hpre : fsLookup fs p = none ∨ fsLookup fs p = some (.file data)) :
    fsLookup fs' p = some (.file data) := by
  rcases hpre with hl | hl
  · simp only [fsOpenCreateWrite, hl] at h
    by_cases hd : fsIsDir fs p.dropLast = true
    · rw [if_pos hd] at h
      injection h with h
      subst h
      simp [fsLookup]
    · rw [if_neg hd] at h
      cases h
  · simp only [fsOpenCreateWrite, hl] at h
    injection h with h
    subst h
    simp [fsLookup, writeAt0_self]

theorem fsOpenCreateWrite_ok_other {fs fs' : Fs} {p : FsPath} {data : Bytes}
    (h : fsOpenCreateWrite fs p data = .ok fs') {q : FsPath} (hne : q ≠ p) :
    fsLookup fs' q = fsLookup fs q := by
  rw [fsOpenCreateWrite] at h
  cases hl : fsLookup fs p with
  | some n =>
    cases n with
    | file old =>
      simp only [hl] at h
      injection h with h
      subst h
      simp [fsLookup, hne]
    | dir =>
      simp only [hl] at h
      cases h
  | none =>
    simp only [hl] at h
    by_cases hd : fsIsDir fs p.dropLast = true
    · rw [if_pos hd] at h
      injection h with h
      subst h
      simp [fsLookup, hne]
    · rw [if_neg hd] at h
      cases h

theorem insert_ok_decompose {root : FsPath} {fs fs' : Fs} {b : Bytes}
    {id : ObjectId}
    (h : DirectoryObjectStore.insert root fs b = .ok (fs', id)) :
    id = objectIdOf b
    ∧ ∃ fs1 : Fs,
        fsOpenCreateWrite fs1
          ((root ++ [(idString (objectIdOf b)).take 2])
            ++ [(idString (objectIdOf b)).drop 2]) b = .ok fs'
        ∧ ((fs1 = fs
             ∧ fsTryExists fs (root ++ [(idString (objectIdOf b)).take 2]) = true)
           ∨ fs1 = ((root ++ [(idString (objectIdOf b)).take 2]), FsNode.dir) :: fs) := by
  simp only [DirectoryObjectStore.insert] at h
  cases hex : fsTryExists fs (root ++ [(idString (objectIdOf b)).take 2]) with
  | true =>
    simp only [hex, Bool.not_true, Bool.false_eq_true, if_false] at h
    cases how : fsOpenCreateWrite fs
        ((root ++ [(idString (objectIdOf b)).take 2])
          ++ [(idString (objectIdOf b)).drop 2]) b with
    | error e =>
      simp only [how] at h
      cases h
    | ok fs2 =>
      simp only [how, Except.ok.injEq, Prod.mk.injEq] at h
      obtain ⟨h1, h2⟩ := h
      subst h1
      subst h2
      exact ⟨rfl, fs, how, Or.inl ⟨rfl, rfl⟩⟩
  | false =>
    simp only [hex, Bool.not_false, if_true, fsCreateDir, Bool.false_eq_true,
      if_false] at h
    by_cases hroot : fsIsDir fs (root ++ [(idString (objectIdOf b)).take 2]).dropLast = true
    · rw [if_pos hroot] at h
      cases how : fsOpenCreateWrite
          (((root ++ [(idString (objectIdOf b)).take 2]), FsNode.dir) :: fs)
          ((root ++ [(idString (objectIdOf b)).take 2])
            ++ [(idString (objectIdOf b)).drop 2]) b with
      | error e =>
        simp only [how] at h
        cases h
      | ok fs2 =>
        simp only [how, Except.ok.injEq, Prod.mk.injEq] at h
        obtain ⟨h1, h2⟩ := h
        subst h1
        subst h2
        exact ⟨rfl, _, how, Or.inr rfl⟩
    · rw [if_neg hroot] at h
      cases h


/- ## Claims C1, C5, C8 -/

/-- C1: Store round-trip — if `insert(b)` succeeds on a store state whose
object file for `b`, when already present, holds exactly `b` (the invariant
that content addressing guarantees for every state the store itself can
produce), then `read` of the returned identifier on the resulting state
succeeds and returns `Some(b)`. -/
theorem c1_store_round_trip {root : FsPath} {fs fs' : Fs} {b : Bytes}
    {id : ObjectId}
    (h : DirectoryObjectStore.insert root fs b = .ok (fs', id))
    (hpre : fsLookup fs (root ++ [(idString (objectIdOf b)).take 2,
        (idString (objectIdOf b)).drop 2]) = none
      ∨ fsLookup fs (root ++ [(idString (objectIdOf b)).take 2,
        (idString (objectIdOf b)).drop 2]) = some (.file b)) :
    DirectoryObjectStore.read root fs' id = .ok (some b) := by
  obtain ⟨hid, fs1, hw, hfs1⟩ := insert_ok_decompose h
  subst hid
  have happ : root ++ [(idString (objectIdOf b)).take 2,
        (idString (objectIdOf b)).drop 2]
      = (root ++ [(idString (objectIdOf b)).take 2])
        ++ [(idString (objectIdOf b)).drop 2] := by
    simp
  rw [happ] at hpre
  have hpre1 : fsLookup fs1 ((root ++ [(idString (objectIdOf b)).take 2])
        ++ [(idString (objectIdOf b)).drop 2]) = none
      ∨ fsLookup fs1 ((root ++ [(idString (objectIdOf b)).take 2])
        ++ [(idString (objectIdOf b)).drop 2]) = some (.file b) := by
    rcases hfs1 with ⟨rfl, hex⟩ | rfl
    · exact hpre
    · have hne : ((root ++ [(idString (objectIdOf b)).take 2])
          ++ [(idString (objectIdOf b)).drop 2])
          ≠ (root ++ [(idString (objectIdOf b)).take 2]) := by
        intro hh
        have := congrArg List.length hh
        simp at this
      simpa [fsLookup, hne] using hpre
  have hlook := fsOpenCreateWrite_ok_lookup hw hpre1
  rw [← happ] at hlook
  simp only [DirectoryObjectStore.read, fsOpenRead, hlook]

theorem c1_store_round_trip_witness :
    DirectoryObjectStore.insert [['r']] [([['r']], FsNode.dir)] [0]
      = .ok ([([['r'], ['i', 'd'], ['x', '0', '0']], FsNode.file [0]),
              ([['r'], ['i', 'd']], FsNode.dir), ([['r']], FsNode.dir)], ⟨[0]⟩)
    ∧ DirectoryObjectStore.read [['r']]
        [([['r'], ['i', 'd'], ['x', '0', '0']], FsNode.file [0]),
         ([['r'], ['i', 'd']], FsNode.dir), ([['r']], FsNode.dir)] ⟨[0]⟩
      = .ok (some [0]) :=
  ⟨by rfl,
    @c1_store_round_trip [['r']] [([['r']], FsNode.dir)]
      [([['r'], ['i', 'd'], ['x', '0', '0']], FsNode.file [0]),
       ([['r'], ['i', 'd']], FsNode.dir), ([['r']], FsNode.dir)] [0] ⟨[0]⟩
      (by rfl) (Or.inl (by rfl))⟩

/-- C5: Sharded on-disk layout — a successful `insert(b)` (on a state whose
object file, if present, already holds `b`, and whose shard entry, if
present, is a directory) returns `identifier_of(b)`, leaves the object's
bytes verbatim at `<root>/<first two characters of the canonical id
string>/<remaining characters>`, leaves the shard subdirectory in place
(creating it if it was absent), and `has`/`read` consult exactly that same
path for the same identifier. -/
theorem c5_sharded_layout {root : FsPath} {fs fs' : Fs} {b : Bytes}
    {id : ObjectId}
    (h : DirectoryObjectStore.insert root fs b = .ok (fs', id))
    (hpre : fsLookup fs (root ++ [(idString (objectIdOf b)).take 2,
        (idString (objectIdOf b)).drop 2]) = none
      ∨ fsLookup fs (root ++ [(idString (objectIdOf b)).take 2,
        (idString (objectIdOf b)).drop 2]) = some (.file b))
    (hshard : fsLookup fs (root ++ [(idString (objectIdOf b)).take 2]) = none
      ∨ fsLookup fs (root ++ [(idString (objectIdOf b)).take 2])
          = some FsNode.dir) :
    id = objectIdOf b
    ∧ fsLookup fs' (root ++ [(idString (objectIdOf b)).take 2,
        (idString (objectIdOf b)).drop 2]) = some (.file b)
    ∧ fsLookup fs' (root ++ [(idString (objectIdOf b)).take 2]) = some FsNode.dir
    ∧ (∀ fs₀ : Fs, DirectoryObjectStore.has root fs₀ id
        = .ok (fsTryExists fs₀ (root ++ [(idString (objectIdOf b)).take 2,
            (idString (objectIdOf b)).drop 2])))
    ∧ (∀ (fs₀ : Fs) (c : Bytes),
        fsLookup fs₀ (root ++ [(idString (objectIdOf b)).take 2,
          (idString (objectIdOf b)).drop 2]) = some (.file c) →
        DirectoryObjectStore.read root fs₀ id = .ok (some c)) := by
  obtain ⟨hid, fs1, hw, hfs1⟩ := insert_ok_decompose h
  subst hid
  have happ : root ++ [(idString (objectIdOf b)).take 2,
        (idString (objectIdOf b)).drop 2]
      = (root ++ [(idString (objectIdOf b)).take 2])
        ++ [(idString (objectIdOf b)).drop 2] := by
    simp
  have hnepath : ((root ++ [(idString (objectIdOf b)).take 2])
      ++ [(idString (objectIdOf b)).drop 2])
      ≠ (root ++ [(idString (objectIdOf b)).take 2]) := by
    intro hh
    have := congrArg List.length hh
    simp at this
  have hneshard : (root ++ [(idString (objectIdOf b)).take 2])
      ≠ ((root ++ [(idString (objectIdOf b)).take 2])
        ++ [(idString (objectIdOf b)).drop 2]) := fun hh => hnepath hh.symm
  rw [happ] at hpre
  have hpre1 : fsLookup fs1 ((root ++ [(idString (objectIdOf b)).take 2])
        ++ [(idString (objectIdOf b)).drop 2]) = none
      ∨ fsLookup fs1 ((root ++ [(idString (objectIdOf b)).take 2])
        ++ [(idString (objectIdOf b)).drop 2]) = some (.file b) := by
    rcases hfs1 with ⟨rfl, hex⟩ | rfl
    · exact hpre
    · simpa [fsLookup, hnepath] using hpre
  have hshard1 : fsLookup fs1 (root ++ [(idString (objectIdOf b)).take 2])
      = some FsNode.dir := by
    rcases hfs1 with ⟨rfl, hex⟩ | rfl
    · rcases hshard with hs0 | hs0
      · rw [fsTryExists, hs0] at hex
        cases hex
      · exact hs0
    · simp [fsLookup]
  refine ⟨rfl, ?_, ?_, ?_, ?_⟩
  · rw [happ]
    exact fsOpenCreateWrite_ok_lookup hw hpre1
  · rw [fsOpenCreateWrite_ok_other hw hneshard]
    exact hshard1
  · intro fs₀
    rfl
  · intro fs₀ c hc
    simp only [DirectoryObjectStore.read, fsOpenRead, hc]

theorem c5_sharded_layout_witness :
    DirectoryObjectStore.insert [['r']] [([['r']], FsNode.dir)] [3]
      = .ok ([([['r'], ['i', 'd'], ['x', '0', '3']], FsNode.file [3]),
              ([['r'], ['i', 'd']], FsNode.dir), ([['r']], FsNode.dir)], ⟨[3]⟩)
    ∧ ((⟨[3]⟩ : ObjectId) = objectIdOf [3]
      ∧ fsLookup [([['r'], ['i', 'd'], ['x', '0', '3']], FsNode.file [3]),
          ([['r'], ['i', 'd']], FsNode.dir), ([['r']], FsNode.dir)]
          ([['r']] ++ [(idString (objectIdOf [3])).take 2,
            (idString (objectIdOf [3])).drop 2]) = some (.file [3])
      ∧ fsLookup [([['r'], ['i', 'd'], ['x', '0', '3']], FsNode.file [3]),
          ([['r'], ['i', 'd']], FsNode.dir), ([['r']], FsNode.dir)]
          ([['r']] ++ [(idString (objectIdOf [3])).take 2]) = some FsNode.dir
      ∧ (∀ fs₀ : Fs, DirectoryObjectStore.has [['r']] fs₀ ⟨[3]⟩
          = .ok (fsTryExists fs₀ ([['r']] ++ [(idString (objectIdOf [3])).take 2,
              (idString (objectIdOf [3])).drop 2])))
      ∧ (∀ (fs₀ : Fs) (c : Bytes),
          fsLookup fs₀ ([['r']] ++ [(idString (objectIdOf [3])).take 2,
            (idString (objectIdOf [3])).drop 2]) = some (.file c) →
          DirectoryObjectStore.read [['r']] fs₀ ⟨[3]⟩ = .ok (some c))) :=
  ⟨by rfl,
    @c5_sharded_layout [['r']] [([['r']], FsNode.dir)]
      [([['r'], ['i', 'd'], ['x', '0', '3']], FsNode.file [3]),
       ([['r'], ['i', 'd']], FsNode.dir), ([['r']], FsNode.dir)] [3] ⟨[3]⟩
      (by rfl) (Or.inl (by rfl)) (Or.inl (by rfl))⟩

/-- C8: Not-found is not an error — `read` returns `Ok(None)` whenever the
sharded path is missing (the open fails with kind `NotFound`), and any
`Err` it returns has an error kind other than `NotFound`. -/
theorem c8_notfound_not_error (root : FsPath) (fs : Fs) (id : ObjectId) :
    (fsLookup fs (root ++ [(idString id).take 2, (idString id).drop 2]) = none →
      fsAncestorIsFile fs
        (root ++ [(idString id).take 2, (idString id).drop 2]) = false →
      DirectoryObjectStore.read root fs id = .ok none)
    ∧ ∀ e : IOError, DirectoryObjectStore.read root fs id = .error e →
        e.kind ≠ .notFound := by
  constructor
  · intro hl ha
    simp only [DirectoryObjectStore.read, fsOpenRead, hl, ha]
    simp
  · intro e he
    rw [DirectoryObjectStore.read] at he
    cases ho : fsOpenRead fs
        (root ++ [(idString id).take 2, (idString id).drop 2]) with
    | ok v =>
      simp only [ho] at he
      cases he
    | error err =>
      simp only [ho] at he
      by_cases hk : err.kind = .notFound
      · rw [if_pos hk] at he
        cases he
      · rw [if_neg hk] at he
        injection he with he
        subst he
        exact hk

theorem c8_notfound_not_error_witness :
    fsLookup ([] : Fs)
      ([['r']] ++ [(idString ⟨[]⟩).take 2, (idString ⟨[]⟩).drop 2]) = none
    ∧ fsAncestorIsFile []
        ([['r']] ++ [(idString ⟨[]⟩).take 2, (idString ⟨[]⟩).drop 2]) = false
    ∧ DirectoryObjectStore.read [['r']] [] ⟨[]⟩ = .ok none :=
  ⟨by decide, by decide,
    (c8_notfound_not_error [['r']] [] ⟨[]⟩).1 (by decide) (by decide)⟩

/- ## Claims C3, C6, C7 -/

/-- C6: Materializer no-op precondition — for every tree and store, if the
top-level `target_path` does not exist, `write` returns `Ok` and performs
no store reads (the result is the same for every store) and no filesystem
writes (the filesystem state is returned unchanged). -/
theorem c6_write_noop_when_target_missing {ε : Type}
    (readStore : ObjectId → Except ε (Option Bytes)) (self : Directory)
    (fs : Fs) (path : FsPath) (h : fsLookup fs path = none) :
    Directory.write readStore self fs path = .ok fs := by
  have hdir : fsIsDir fs path = false := by
    rw [fsIsDir, h]
  rw [Directory.write, hdir]
  simp

theorem c6_write_noop_witness :
    fsLookup ([] : Fs) [['t']] = none
    ∧ Directory.write (fun _ => (Except.ok none : Except Unit (Option Bytes)))
        (Directory.cons "a" (.file ⟨[]⟩) .nil) [] [['t']] = .ok [] :=
  ⟨rfl, c6_write_noop_when_target_missing _ _ _ _ rfl⟩

/-- C7: Consistency fault — if the target path exists and `write` reaches a
file entry whose identifier the store's `read` reports as absent
(`Ok(None)`), then `write` fails with `ObjectMissing` carrying that
identifier (stated for the entry at the head of its level, i.e. the first
entry the loop processes). -/
theorem c7_object_missing {ε : Type}
    (readStore : ObjectId → Except ε (Option Bytes)) (name : String)
    (id : ObjectId) (rest : Directory) (fs : Fs) (path : FsPath)
    (hdir : fsIsDir fs path = true) (hread : readStore id = .ok none) :
    Directory.write readStore (.cons name (.file id) rest) fs path
      = .error (.objectMissing id) := by
  rw [Directory.write, hdir]
  simp only [if_true]
  simp only [Directory.writeEntries, hread]

theorem c7_object_missing_witness :
    fsIsDir [([['t']], FsNode.dir)] [['t']] = true
    ∧ (fun _ : ObjectId => (Except.ok none : Except Unit (Option Bytes))) ⟨[]⟩
        = .ok none
    ∧ Directory.write (fun _ => (Except.ok none : Except Unit (Option Bytes)))
        (.cons "a" (.file ⟨[]⟩) .nil) [([['t']], FsNode.dir)] [['t']]
      = .error (.objectMissing ⟨[]⟩) :=
  ⟨rfl, rfl, c7_object_missing _ _ _ _ _ _ rfl rfl⟩

/-- C3 (refutation): the claim says `write` truncates an existing target
file so the result holds exactly the stored bytes; but the open options in
src/directory.rs lines 116-120 are `create(true).write(true)` with no
`truncate(true)`, so writing stored bytes `[1]` over an existing file
`[7, 8, 9]` leaves `[1, 8, 9]`, not `[1]`. -/
theorem c3_write_does_not_truncate :
    Directory.write (fun _ => (Except.ok (some [1]) : Except Unit (Option Bytes)))
      (.cons "a" (.file ⟨[1]⟩) .nil)
      [([['t']], FsNode.dir), ([['t'], ['a']], FsNode.file [7, 8, 9])] [['t']]
      = .ok [([['t'], ['a']], FsNode.file [1, 8, 9]),
          ([['t']], FsNode.dir), ([['t'], ['a']], FsNode.file [7, 8, 9])]
    ∧ FsNode.file [1, 8, 9] ≠ FsNode.file [1] := by
  refine ⟨?_, by decide⟩
  have h1 : fsIsDir [([['t']], FsNode.dir), ([['t'], ['a']], FsNode.file [7, 8, 9])]
      [['t']] = true := by decide
  have h2 : fsOpenCreateWrite
      [([['t']], FsNode.dir), ([['t'], ['a']], FsNode.file [7, 8, 9])]
      ([['t']] ++ [strToName "a"]) [1]
      = .ok [([['t'], ['a']], FsNode.file [1, 8, 9]),
          ([['t']], FsNode.dir), ([['t'], ['a']], FsNode.file [7, 8, 9])] := by
    rfl
  rw [Directory.write, h1]
  simp only [if_true]
  simp only [Directory.writeEntries, h2]

/- ## Claim C10 -/

theorem dirNew_ne_err {σ : Type} (ins : σ → Bytes → σ) (ignores : Ignores)
    (children : FsChildren) (acc : Directory) (st : σ) (e : WError IOError) :
    dirNew ins ignores children acc st ≠ .err e := by
  match children with
  | .nil => simp [dirNew]
  | .cons name t rest =>
    cases name with
    | nonUnicode raw => simp [dirNew, OsName.intoString]
    | unicode s =>
      by_cases hig : s ∈ ignores.set
      · have := dirNew_ne_err ins ignores rest acc st e
        simpa [dirNew, OsName.intoString, hig] using this
      · cases t with
        | file content =>
          have := dirNew_ne_err ins ignores rest
            (acc.insertEntry s (.file (objectIdOf content))) (ins st content) e
          simpa [dirNew, OsName.intoString, hig] using this
        | dir sub =>
          cases hres : dirNew ins ignores sub .nil st with
          | panicked => simp [dirNew, OsName.intoString, hig, hres]
          | err e' => exact absurd hres (dirNew_ne_err ins ignores sub .nil st e')
          | ok d st' =>
            have := dirNew_ne_err ins ignores rest
              (acc.insertEntry s (.directory d)) st' e
            simpa [dirNew, OsName.intoString, hig, hres] using this
termination_by sizeOf children

/-- C10: Non-Unicode name panic — for every traversed directory listing
containing a child whose file name is not valid Unicode, the modelled
`Directory::new` panics (`into_string().unwrap()` at the ignore-set check,
src/directory.rs lines 165-168) instead of returning through the `Result`:
the outcome is `panicked`, never `err`. -/
theorem c10_non_unicode_panics {σ : Type} (ins : σ → Bytes → σ)
    (ignores : Ignores) (children : FsChildren) (acc : Directory) (st : σ)
    (h : children.hasNonUnicodeChild = true) :
    dirNew ins ignores children acc st = .panicked := by
  match children with
  | .nil => simp [FsChildren.hasNonUnicodeChild] at h
  | .cons name t rest =>
    cases name with
    | nonUnicode raw => simp [dirNew, OsName.intoString]
    | unicode s =>
      have h' : rest.hasNonUnicodeChild = true := by
        simpa [FsChildren.hasNonUnicodeChild] using h
      by_cases hig : s ∈ ignores.set
      · have := c10_non_unicode_panics ins ignores rest acc st h'
        simpa [dirNew, OsName.intoString, hig] using this
      · cases t with
        | file content =>
          have := c10_non_unicode_panics ins ignores rest
            (acc.insertEntry s (.file (objectIdOf content))) (ins st content) h'
          simpa [dirNew, OsName.intoString, hig] using this
        | dir sub =>
          cases hres : dirNew ins ignores sub .nil st with
          | panicked => simp [dirNew, OsName.intoString, hig, hres]
          | err e' => exact absurd hres (dirNew_ne_err ins ignores sub .nil st e')
          | ok d st' =>
            have := c10_non_unicode_panics ins ignores rest
              (acc.insertEntry s (.directory d)) st' h'
            simpa [dirNew, OsName.intoString, hig, hres] using this
termination_by sizeOf children

theorem c10_non_unicode_panics_witness :
    FsChildren.hasNonUnicodeChild
      (.cons (.nonUnicode [255]) (.file []) .nil) = true
    ∧ dirNew (fun (l : List Bytes) b => b :: l) ⟨[]⟩
        (.cons (.nonUnicode [255]) (.file []) .nil) .nil [] = .panicked :=
  ⟨rfl, c10_non_unicode_panics _ _ _ _ _ rfl⟩
